import Mathlib

/-!
# Verification of the virtual-memory translation simulator

Shallow embedding of `src/main.cpp` (classes `TLB`, `PageTable`,
`PhysicalMemory`, `BackingStore` and the translation loop of `main`),
together with proofs of the specification claims.

Conventions of the embedding:
* machine integers are `Nat` (unsigned) resp. `Int` (the `int16_t` page-table
  slots, whose sentinel is `-1`, and the signed `int8_t` bytes);
  a narrowing conversion to `uint8_t` is an explicit `% 256`;
* the `std::deque<std::pair<uint8_t,uint8_t>>` of TLB entries is a
  `List (Nat × Nat)` whose head is the front (oldest) and whose last element
  is the back (newest) of the deque;
* the `std::array` based page table and physical memory are functions
  (`Nat → Int` resp. `Nat → Nat → Int`) updated pointwise;
* the contents of `BACKING_STORE.bin` are a parameter
  `bs : Nat → Nat → Int` (page number and offset to stored byte);
* mutation is explicit state passing, `exit` / `return EXIT_FAILURE` inside
  the loop is the `Except.error` branch of `step`.
-/

namespace VMM

/-- `#define` constants of `src/main.cpp`. -/
def TLB_SIZE : Nat := 16

def FRAME_SIZE : Nat := 256

def MASK : Nat := 0xFFFF

def OFFSET_MASK : Nat := 0xFF

def BITSHIFT : Nat := 8

/-- One TLB entry: `std::pair<uint8_t,uint8_t>` of (page number, frame number). -/
abbrev TLBEntry := Nat × Nat

namespace TLB

/-- `TLB::getFrameNumber` (src/main.cpp:42-57): scan the deque front to back
for the page; on a hit capture the frame, erase the entry and re-append it at
the back, returning the frame; on a miss return `nullopt` and leave the deque
unchanged.  Returns (result, deque after the call). -/
def getFrameNumber : List TLBEntry → Nat → Option Nat × List TLBEntry
  | [], _ => (none, [])
  | e :: rest, pageNumber =>
    if e.1 = pageNumber then
      -- hit: erase this entry, emplace_back (pageNumber, frameNumber)
      (some e.2, rest ++ [(pageNumber, e.2)])
    else
      let r := getFrameNumber rest pageNumber
      (r.1, e :: r.2)

/-- `TLB::addEntry` (src/main.cpp:64-80): erase an existing entry for the same
page if any, then if the deque is at `TLB_SIZE` pop the front (oldest) entry,
then emplace the new entry at the back. -/
def addEntry (tlb : List TLBEntry) (pageNumber frameNumber : Nat) : List TLBEntry :=
  let t1 := tlb.eraseP (fun e => e.1 == pageNumber)
  let t2 := if TLB_SIZE ≤ t1.length then t1.tail else t1
  t2 ++ [(pageNumber, frameNumber)]

end TLB

namespace PageTable

/-- The initial page table (src/main.cpp:94-96): every slot filled with `-1`. -/
def init : Nat → Int := fun _ => -1

/-- `PageTable::getFrameNumber` (src/main.cpp:103-106): `-1` means page fault
(`nullopt`), otherwise `static_cast<uint8_t>` of the stored `int16_t`. -/
def getFrameNumber (pt : Nat → Int) (pageNumber : Nat) : Option Nat :=
  let frameNumber := pt pageNumber
  if frameNumber = -1 then none else some (frameNumber.toNat % 256)

/-- `PageTable::setFrameNumber` (src/main.cpp:113-115). -/
def setFrameNumber (pt : Nat → Int) (pageNumber frameNumber : Nat) : Nat → Int :=
  fun q => if q = pageNumber then (frameNumber : Int) else pt q

end PageTable

namespace PhysicalMemory

/-- The zero-initialised frames `std::array<std::array<int8_t,256>,256> memory{}`. -/
def init : Nat → Nat → Int := fun _ _ => 0

/-- `PhysicalMemory::loadPage` (src/main.cpp:132-134): copy the 256 page bytes
into the given frame. -/
def loadPage (mem : Nat → Nat → Int) (frameNumber : Nat) (pageData : Nat → Int) :
    Nat → Nat → Int :=
  fun f o => if f = frameNumber then pageData o else mem f o

/-- `PhysicalMemory::getValue` (src/main.cpp:145-149): split the physical
address into frame (high 8 bits) and offset (low 8 bits) and read the byte. -/
def getValue (mem : Nat → Nat → Int) (physicalAddress : Nat) : Int :=
  let frameNumber := (physicalAddress >>> 8) &&& 0xFF
  let offset := physicalAddress &&& 0xFF
  mem frameNumber offset

end PhysicalMemory

namespace BackingStore

/-- `BackingStore::readPage` (src/main.cpp:188-197): the page's 256 bytes,
read from offset `pageNumber * PAGE_SIZE` of the backing file `bs`. -/
def readPage (bs : Nat → Nat → Int) (pageNumber : Nat) : Nat → Int :=
  bs pageNumber

end BackingStore

/-- The mutable state of `main`'s translation loop (src/main.cpp:209-223). -/
structure SimState where
  tlb : List TLBEntry
  pageTable : Nat → Int
  memory : Nat → Nat → Int
  nextAvailableFrame : Nat
  totalAddresses : Nat
  tlbHits : Nat
  pageFaults : Nat

/-- The state at loop entry: empty TLB, all-invalid page table, zeroed
physical memory, all counters zero. -/
def initState : SimState :=
  { tlb := []
    pageTable := PageTable.init
    memory := PhysicalMemory.init
    nextAvailableFrame := 0
    totalAddresses := 0
    tlbHits := 0
    pageFaults := 0 }

/-- One terminal log line (src/main.cpp:285-287), plus the local
`frameNumber` of src/main.cpp:280 from which the physical address is built. -/
structure Output where
  logicalAddress : Nat
  physicalAddress : Nat
  value : Int
  frameNumber : Nat
  deriving DecidableEq

/-- The page number of a (16-bit-masked) logical address
(src/main.cpp:237): bits 8-15. -/
def pageNumberOf (logicalAddress : Nat) : Nat :=
  (logicalAddress >>> BITSHIFT) &&& OFFSET_MASK

/-- The offset of a (16-bit-masked) logical address (src/main.cpp:238):
bits 0-7. -/
def offsetOf (logicalAddress : Nat) : Nat :=
  logicalAddress &&& OFFSET_MASK

/-- One iteration of the `while (std::getline(...))` loop of `main`
(src/main.cpp:227-288) on the parsed integer `a` of the current line.
`Except.error` is the `return EXIT_FAILURE` of src/main.cpp:269-272
("Error: Physical memory is full."), carrying the state at that point;
no output line is emitted in that case, since the `std::cout` of
src/main.cpp:285 is only reached otherwise. -/
def step (bs : Nat → Nat → Int) (s : SimState) (a : Nat) :
    Except SimState (SimState × Output) :=
  let totalAddresses := s.totalAddresses + 1
  -- logicalAddress = std::stoul(line) & MASK
  let logicalAddress := a &&& MASK
  let pageNumber := pageNumberOf logicalAddress
  let offset := offsetOf logicalAddress
  match TLB.getFrameNumber s.tlb pageNumber with
  | (some frameNumber, tlb1) =>
    -- TLB hit
    let s' := { s with tlb := tlb1, totalAddresses := totalAddresses,
                       tlbHits := s.tlbHits + 1 }
    let physicalAddress := (frameNumber <<< 8) ||| offset
    let value := PhysicalMemory.getValue s'.memory physicalAddress
    .ok (s', ⟨logicalAddress, physicalAddress, value, frameNumber⟩)
  | (none, tlb1) =>
    match PageTable.getFrameNumber s.pageTable pageNumber with
    | some frameNumber =>
      -- page table hit: fill the TLB
      let tlb2 := TLB.addEntry tlb1 pageNumber frameNumber
      let s' := { s with tlb := tlb2, totalAddresses := totalAddresses }
      let physicalAddress := (frameNumber <<< 8) ||| offset
      let value := PhysicalMemory.getValue s'.memory physicalAddress
      .ok (s', ⟨logicalAddress, physicalAddress, value, frameNumber⟩)
    | none =>
      -- page fault
      let pageData := BackingStore.readPage bs pageNumber
      -- uint8_t view of the uint16_t frame cursor, as passed to loadPage,
      -- setFrameNumber, addEntry and the optional
      let frameNumber := s.nextAvailableFrame % 256
      let mem' := PhysicalMemory.loadPage s.memory frameNumber pageData
      let pt' := PageTable.setFrameNumber s.pageTable pageNumber frameNumber
      let tlb2 := TLB.addEntry tlb1 pageNumber frameNumber
      let nextAvailableFrame := s.nextAvailableFrame + 1
      let s' := { s with tlb := tlb2, pageTable := pt', memory := mem',
                         nextAvailableFrame := nextAvailableFrame,
                         totalAddresses := totalAddresses,
                         pageFaults := s.pageFaults + 1 }
      if FRAME_SIZE ≤ nextAvailableFrame then
        .error s'
      else
        let physicalAddress := (frameNumber <<< 8) ||| offset
        let value := PhysicalMemory.getValue s'.memory physicalAddress
        .ok (s', ⟨logicalAddress, physicalAddress, value, frameNumber⟩)

/-- The whole loop on a list of parsed addresses: final state, emitted output
lines in order, and whether the run ended with the fatal
"Physical memory is full" exit (`true`) instead of consuming the stream. -/
def run (bs : Nat → Nat → Int) : SimState → List Nat → SimState × List Output × Bool
  | s, [] => (s, [], false)
  | s, a :: rest =>
    match step bs s a with
    | .error s' => (s', [], true)
    | .ok (s', out) =>
      let r := run bs s' rest
      (r.1, out :: r.2.1, r.2.2)

/-- `pageFaultRate` (src/main.cpp:291), with the real arithmetic of `double`
rendered exactly in `ℚ`. -/
def pageFaultRate (pageFaults totalAddresses : Nat) : ℚ :=
  (pageFaults : ℚ) / (totalAddresses : ℚ) * 100

/-- `tlbHitRate` (src/main.cpp:292). -/
def tlbHitRate (tlbHits totalAddresses : Nat) : ℚ :=
  (tlbHits : ℚ) / (totalAddresses : ℚ) * 100

/-! ### TLB lemmas -/

namespace TLB

/-- Full characterisation of `TLB::getFrameNumber`: either the scan finds the
first entry for the page and moves it to the back, or it finds nothing and
leaves the deque untouched. -/
theorem getFrameNumber_eq (tlb : List TLBEntry) (p : Nat) :
    (∃ f, tlb.find? (fun e => e.1 == p) = some (p, f) ∧
      getFrameNumber tlb p =
        (some f, tlb.eraseP (fun e => e.1 == p) ++ [(p, f)])) ∨
    (tlb.find? (fun e => e.1 == p) = none ∧ getFrameNumber tlb p = (none, tlb)) := by
  induction tlb with
  | nil => exact Or.inr ⟨rfl, rfl⟩
  | cons e rest ih =>
    obtain ⟨e1, e2⟩ := e
    by_cases h : e1 = p
    · subst h
      refine Or.inl ⟨e2, ?_, ?_⟩
      · rw [List.find?_cons_of_pos _ (by simp)]
      · rw [getFrameNumber]
        simp [List.eraseP_cons_of_pos]
    · have hfind : ((e1, e2) :: rest).find? (fun e => e.1 == p) =
          rest.find? (fun e => e.1 == p) :=
        List.find?_cons_of_neg _ (by simpa using h)
      have herase : ((e1, e2) :: rest).eraseP (fun e => e.1 == p) =
          (e1, e2) :: rest.eraseP (fun e => e.1 == p) :=
        List.eraseP_cons_of_neg (by simpa using h)
      rcases ih with ⟨f, hf, heq⟩ | ⟨hf, heq⟩
      · refine Or.inl ⟨f, by rw [hfind, hf], ?_⟩
        rw [getFrameNumber, if_neg h, heq, herase]
        simp
      · refine Or.inr ⟨by rw [hfind, hf], ?_⟩
        rw [getFrameNumber, if_neg h, heq]

/-- A page with no entry in the deque: miss, and no mutation. -/
theorem getFrameNumber_of_not_mem {tlb : List TLBEntry} {p : Nat}
    (h : p ∉ tlb.map Prod.fst) : getFrameNumber tlb p = (none, tlb) := by
  rcases getFrameNumber_eq tlb p with ⟨f, hf, _⟩ | ⟨_, heq⟩
  · exact absurd (List.mem_map_of_mem Prod.fst (List.mem_of_find?_eq_some hf)) h
  · exact heq

/-- The scan does not change the number of entries. -/
theorem length_getFrameNumber (tlb : List TLBEntry) (p : Nat) :
    ((getFrameNumber tlb p).2).length = tlb.length := by
  induction tlb with
  | nil => rfl
  | cons e rest ih =>
    by_cases h : e.1 = p
    · rw [getFrameNumber, if_pos h]
      simp
    · rw [getFrameNumber, if_neg h]
      simpa using ih

/-- The scan permutes the pages present in the deque. -/
theorem keys_getFrameNumber_perm (tlb : List TLBEntry) (p : Nat) :
    List.Perm (((getFrameNumber tlb p).2).map Prod.fst) (tlb.map Prod.fst) := by
  induction tlb with
  | nil => simp [getFrameNumber]
  | cons e rest ih =>
    by_cases h : e.1 = p
    · rw [getFrameNumber, if_pos h]
      simp only [List.map_append, List.map_cons, List.map_nil, ← h]
      exact List.perm_append_singleton e.1 (rest.map Prod.fst)
    · rw [getFrameNumber, if_neg h]
      simpa using ih.cons e.1

/-- Every entry of the deque after a scan was already present before it. -/
theorem mem_of_mem_getFrameNumber {tlb : List TLBEntry} {p : Nat} {x : TLBEntry}
    (h : x ∈ (getFrameNumber tlb p).2) : x ∈ tlb := by
  induction tlb with
  | nil => simp [getFrameNumber] at h
  | cons e rest ih =>
    obtain ⟨e1, e2⟩ := e
    by_cases he : e1 = p
    · subst he
      rw [getFrameNumber, if_pos rfl] at h
      rcases List.mem_append.1 h with h1 | h1
      · exact List.mem_cons_of_mem _ h1
      · exact (List.mem_singleton.1 h1) ▸ List.mem_cons_self _ _
    · rw [getFrameNumber, if_neg he] at h
      rcases List.mem_cons.1 h with h1 | h1
      · exact h1 ▸ List.mem_cons_self _ _
      · exact List.mem_cons_of_mem _ (ih h1)

/-- With no duplicate pages, looking up a present `(page, frame)` pair
returns exactly its frame. -/
theorem getFrameNumber_fst_of_mem {tlb : List TLBEntry} {p f : Nat}
    (hnd : (tlb.map Prod.fst).Nodup) (hmem : (p, f) ∈ tlb) :
    (getFrameNumber tlb p).1 = some f := by
  induction tlb with
  | nil => cases hmem
  | cons e rest ih =>
    rw [List.map_cons, List.nodup_cons] at hnd
    obtain ⟨hnot, hnd2⟩ := hnd
    by_cases he : e.1 = p
    · rw [getFrameNumber, if_pos he]
      rcases List.mem_cons.1 hmem with h1 | h1
      · simp [← h1]
      · exact absurd (he ▸ List.mem_map_of_mem Prod.fst h1) hnot
    · rw [getFrameNumber, if_neg he]
      rcases List.mem_cons.1 hmem with h1 | h1
      · exact absurd (congrArg Prod.fst h1.symm) he
      · simpa using ih hnd2 h1

/-- After erasing the entry for `p` from a deque without duplicate pages,
`p` occurs nowhere. -/
theorem not_mem_keys_eraseP {tlb : List TLBEntry} {p : Nat}
    (hnd : (tlb.map Prod.fst).Nodup) :
    p ∉ (tlb.eraseP (fun e => e.1 == p)).map Prod.fst := by
  induction tlb with
  | nil => simp
  | cons e rest ih =>
    rw [List.map_cons, List.nodup_cons] at hnd
    obtain ⟨hnot, hnd2⟩ := hnd
    by_cases he : e.1 = p
    · rw [List.eraseP_cons_of_pos (by simpa using he)]
      exact fun hm => hnot (he ▸ hm)
    · rw [List.eraseP_cons_of_neg (by simpa using he)]
      simp only [List.map_cons, List.mem_cons]
      push_neg
      exact ⟨fun h1 => he h1.symm, ih hnd2⟩

/-- `TLB::addEntry` keeps the pages duplicate-free. -/
theorem nodup_keys_addEntry {tlb : List TLBEntry} (p f : Nat)
    (hnd : (tlb.map Prod.fst).Nodup) :
    ((addEntry tlb p f).map Prod.fst).Nodup := by
  have key : ∀ t2 : List TLBEntry, (t2.map Prod.fst).Nodup → p ∉ t2.map Prod.fst →
      ((t2 ++ [(p, f)]).map Prod.fst).Nodup := by
    intro t2 h1 h2
    have : (t2.map Prod.fst ++ [p]).Nodup :=
      (List.perm_append_singleton p (t2.map Prod.fst)).symm.nodup
        (List.nodup_cons.2 ⟨h2, h1⟩)
    simpa using this
  have hsub1 : ((tlb.eraseP (fun e => e.1 == p)).map Prod.fst).Nodup :=
    ((List.eraseP_sublist tlb).map Prod.fst).nodup hnd
  have hout1 : p ∉ (tlb.eraseP (fun e => e.1 == p)).map Prod.fst :=
    not_mem_keys_eraseP hnd
  simp only [addEntry]
  by_cases hlen : TLB_SIZE ≤ (tlb.eraseP (fun e => e.1 == p)).length
  · rw [if_pos hlen]
    refine key _ (((tlb.eraseP _).tail_sublist.map Prod.fst).nodup hsub1) ?_
    exact fun hm => hout1 (((tlb.eraseP _).tail_sublist.map Prod.fst).mem hm)
  · rw [if_neg hlen]
    exact key _ hsub1 hout1

/-- `TLB::addEntry` keeps the deque within its 16-entry capacity. -/
theorem length_addEntry_le {tlb : List TLBEntry} (p f : Nat)
    (h : tlb.length ≤ TLB_SIZE) : (addEntry tlb p f).length ≤ TLB_SIZE := by
  have h1 : (tlb.eraseP (fun e => e.1 == p)).length ≤ tlb.length :=
    List.length_eraseP_le tlb
  have htail := List.length_tail (tlb.eraseP (fun e => e.1 == p))
  simp only [addEntry]
  by_cases hlen : TLB_SIZE ≤ (tlb.eraseP (fun e => e.1 == p)).length
  · rw [if_pos hlen]
    simp only [List.length_append, List.length_cons, List.length_nil, htail]
    unfold TLB_SIZE at *
    omega
  · rw [if_neg hlen]
    simp only [List.length_append, List.length_cons, List.length_nil]
    unfold TLB_SIZE at *
    omega

/-- The freshly inserted pair is in the deque (at the back). -/
theorem mem_addEntry_self (tlb : List TLBEntry) (p f : Nat) :
    (p, f) ∈ addEntry tlb p f := by
  simp [addEntry]

/-- Entries after `addEntry` are the new pair or survivors from before. -/
theorem mem_of_mem_addEntry {tlb : List TLBEntry} {p f : Nat} {x : TLBEntry}
    (h : x ∈ addEntry tlb p f) : x = (p, f) ∨ x ∈ tlb := by
  simp only [addEntry] at h
  rcases List.mem_append.1 h with h1 | h1
  · right
    by_cases hlen : TLB_SIZE ≤ (tlb.eraseP (fun e => e.1 == p)).length
    · rw [if_pos hlen] at h1
      exact List.eraseP_subset tlb (List.mem_of_mem_tail h1)
    · rw [if_neg hlen] at h1
      exact List.eraseP_subset tlb h1
  · exact Or.inl (List.mem_singleton.1 h1)

/-- Inserting a page that is not yet present: the erase pass is a no-op, so
the call is exactly "evict the front if full, then append". -/
theorem addEntry_of_not_mem {tlb : List TLBEntry} {p : Nat} (f : Nat)
    (h : p ∉ tlb.map Prod.fst) :
    addEntry tlb p f =
      (if TLB_SIZE ≤ tlb.length then tlb.tail else tlb) ++ [(p, f)] := by
  have : tlb.eraseP (fun e => e.1 == p) = tlb := by
    apply List.eraseP_of_forall_not
    intro x hx
    simp only [beq_iff_eq]
    exact fun hxp => h (hxp ▸ List.mem_map_of_mem Prod.fst hx)
  simp only [addEntry, this]

/-- Folding `addEntry` over a duplicate-free list of fresh pages appends them
at the back and drops, FIFO-wise, exactly the overflow beyond 16 entries from
the front. -/
theorem foldl_addEntry_fresh :
    ∀ (ps : List TLBEntry) (tlb : List TLBEntry), tlb.length ≤ TLB_SIZE →
      (ps.map Prod.fst).Nodup →
      (∀ e ∈ ps, e.1 ∉ tlb.map Prod.fst) →
      ps.foldl (fun t e => addEntry t e.1 e.2) tlb =
        (tlb ++ ps).drop (tlb.length + ps.length - TLB_SIZE)
  | [], tlb, hlen, _, _ => by
    have h0 : tlb.length - TLB_SIZE = 0 := by omega
    simp [h0]
  | e :: rest, tlb, hlen, hnd, hfresh => by
    rw [List.map_cons, List.nodup_cons] at hnd
    obtain ⟨hnot, hnd2⟩ := hnd
    have hfe : e.1 ∉ tlb.map Prod.fst := hfresh e (List.mem_cons_self _ _)
    rw [List.foldl_cons, addEntry_of_not_mem e.2 hfe]
    by_cases hful : TLB_SIZE ≤ tlb.length
    · -- the deque is full (length exactly 16): the front entry is dropped
      have h16 : tlb.length = TLB_SIZE := le_antisymm hlen hful
      rw [if_pos hful]
      have hlen2 : (tlb.tail ++ [e]).length ≤ TLB_SIZE := by
        simp only [List.length_append, List.length_tail, List.length_cons,
          List.length_nil, h16]
        simp only [TLB_SIZE]
        omega
      have hfresh2 : ∀ x ∈ rest, x.1 ∉ (tlb.tail ++ [e]).map Prod.fst := by
        intro x hx
        simp only [List.map_append, List.mem_append, List.map_cons,
          List.map_nil, List.mem_singleton]
        push_neg
        constructor
        · exact fun hm =>
            hfresh x (List.mem_cons_of_mem e hx) ((tlb.tail_sublist.map Prod.fst).mem hm)
        · intro hx1
          exact hnot (hx1 ▸ List.mem_map_of_mem Prod.fst hx)
      rw [foldl_addEntry_fresh rest (tlb.tail ++ [e]) hlen2 hnd2 hfresh2]
      obtain ⟨t0, ttail, rfl⟩ : ∃ t0 ttail, tlb = t0 :: ttail := by
        cases tlb with
        | nil => simp [TLB_SIZE] at h16
        | cons t0 ttail => exact ⟨t0, ttail, rfl⟩
      have h15 : ttail.length + 1 = TLB_SIZE := by
        simpa using h16
      rw [List.tail_cons]
      have hL : (ttail ++ [e]) ++ rest = ttail ++ e :: rest := by simp
      rw [hL]
      have hiL : (ttail ++ [e]).length + rest.length - TLB_SIZE = rest.length := by
        simp only [List.length_append, List.length_cons, List.length_nil]
        omega
      rw [hiL]
      have hiR : (t0 :: ttail).length + (e :: rest).length - TLB_SIZE =
          rest.length + 1 := by
        simp only [List.length_cons]
        omega
      rw [hiR, List.cons_append, List.drop_succ_cons]
    · -- room left: nothing is dropped in this round
      rw [if_neg hful]
      have hlen2 : (tlb ++ [e]).length ≤ TLB_SIZE := by
        simp only [List.length_append, List.length_cons, List.length_nil]
        omega
      have hfresh2 : ∀ x ∈ rest, x.1 ∉ (tlb ++ [e]).map Prod.fst := by
        intro x hx
        simp only [List.map_append, List.mem_append, List.map_cons,
          List.map_nil, List.mem_singleton]
        push_neg
        constructor
        · exact fun hm => hfresh x (List.mem_cons_of_mem e hx) hm
        · intro hx1
          exact hnot (hx1 ▸ List.mem_map_of_mem Prod.fst hx)
      rw [foldl_addEntry_fresh rest (tlb ++ [e]) hlen2 hnd2 hfresh2]
      have harr : (tlb ++ [e]) ++ rest = tlb ++ e :: rest := by simp
      have hidx : (tlb ++ [e]).length + rest.length = tlb.length + (e :: rest).length := by
        simp only [List.length_append, List.length_cons, List.length_nil]
        omega
      rw [harr, hidx]

end TLB

/-! ### Page-table lemmas -/

namespace PageTable

theorem getFrameNumber_eq_none {pt : Nat → Int} {p : Nat} :
    getFrameNumber pt p = none ↔ pt p = -1 := by
  unfold getFrameNumber
  by_cases h : pt p = -1 <;> simp [h]

theorem getFrameNumber_eq_some {pt : Nat → Int} {p f : Nat} :
    getFrameNumber pt p = some f ↔ pt p ≠ -1 ∧ (pt p).toNat % 256 = f := by
  unfold getFrameNumber
  by_cases h : pt p = -1 <;> simp [h]

theorem setFrameNumber_same (pt : Nat → Int) (p f : Nat) :
    setFrameNumber pt p f p = (f : Int) := by
  simp [setFrameNumber]

theorem setFrameNumber_other (pt : Nat → Int) {q p : Nat} (f : Nat) (h : q ≠ p) :
    setFrameNumber pt p f q = pt q := by
  simp [setFrameNumber, h]

end PageTable

/-! ### Branch equations for `step` -/

section StepBranches

variable (bs : Nat → Nat → Int) {s : SimState} {a : Nat}

/-- `step` on a TLB hit (src/main.cpp:244-245 then 280-287). -/
theorem step_tlb_hit {f : Nat} {t : List TLBEntry}
    (h : TLB.getFrameNumber s.tlb (pageNumberOf (a &&& MASK)) = (some f, t)) :
    step bs s a =
      .ok ({ s with tlb := t, totalAddresses := s.totalAddresses + 1,
                    tlbHits := s.tlbHits + 1 },
        ⟨a &&& MASK, (f <<< 8) ||| offsetOf (a &&& MASK),
          PhysicalMemory.getValue s.memory ((f <<< 8) ||| offsetOf (a &&& MASK)),
          f⟩) := by
  simp only [step]
  rw [h]

/-- `step` on a TLB miss that hits the page table (src/main.cpp:247, 273-276,
280-287). -/
theorem step_pt_hit {f : Nat} {t : List TLBEntry}
    (htlb : TLB.getFrameNumber s.tlb (pageNumberOf (a &&& MASK)) = (none, t))
    (hpt : PageTable.getFrameNumber s.pageTable (pageNumberOf (a &&& MASK)) = some f) :
    step bs s a =
      .ok ({ s with tlb := TLB.addEntry t (pageNumberOf (a &&& MASK)) f,
                    totalAddresses := s.totalAddresses + 1 },
        ⟨a &&& MASK, (f <<< 8) ||| offsetOf (a &&& MASK),
          PhysicalMemory.getValue s.memory ((f <<< 8) ||| offsetOf (a &&& MASK)),
          f⟩) := by
  simp only [step]
  rw [htlb, hpt]

/-- `step` on a page fault (src/main.cpp:250-272, 280-287): the faulting
state update, then either the fatal full-memory exit or the output line. -/
theorem step_fault
    (htlb : TLB.getFrameNumber s.tlb (pageNumberOf (a &&& MASK)) = (none, t))
    (hpt : PageTable.getFrameNumber s.pageTable (pageNumberOf (a &&& MASK)) = none) :
    step bs s a =
      (let pageNumber := pageNumberOf (a &&& MASK)
       let frameNumber := s.nextAvailableFrame % 256
       let s' := { s with
         tlb := TLB.addEntry t pageNumber frameNumber
         pageTable := PageTable.setFrameNumber s.pageTable pageNumber frameNumber
         memory := PhysicalMemory.loadPage s.memory frameNumber
           (BackingStore.readPage bs pageNumber)
         nextAvailableFrame := s.nextAvailableFrame + 1
         totalAddresses := s.totalAddresses + 1
         pageFaults := s.pageFaults + 1 }
       if FRAME_SIZE ≤ s.nextAvailableFrame + 1 then .error s'
       else
         .ok (s',
           ⟨a &&& MASK, (frameNumber <<< 8) ||| offsetOf (a &&& MASK),
             PhysicalMemory.getValue s'.memory
               ((frameNumber <<< 8) ||| offsetOf (a &&& MASK)),
             frameNumber⟩)) := by
  simp only [step]
  rw [htlb, hpt]

end StepBranches

/-! ### The pipeline invariant -/

/-- Invariant of the translation state that survives even the fatal exit:
the TLB is within capacity and duplicate-free and coheres with the page
table, the frame cursor counts exactly the page faults, every mapped page
holds a frame below the cursor, and no two pages share a frame. -/
structure Inv0 (s : SimState) : Prop where
  tlb_len : s.tlb.length ≤ TLB_SIZE
  tlb_nodup : (s.tlb.map Prod.fst).Nodup
  coherent : ∀ e ∈ s.tlb, s.pageTable e.1 = (e.2 : Int)
  cursor_faults : s.nextAvailableFrame = s.pageFaults
  mapped_lt : ∀ p, s.pageTable p ≠ -1 →
    ∃ f : Nat, s.pageTable p = (f : Int) ∧ f < s.nextAvailableFrame
  inj : ∀ p q, s.pageTable p ≠ -1 → s.pageTable p = s.pageTable q → p = q

/-- Invariant at loop entry: additionally the frame cursor has not yet hit
the frame count. -/
structure Inv (s : SimState) extends Inv0 s : Prop where
  cursor_lt : s.nextAvailableFrame < FRAME_SIZE

theorem inv_initState : Inv initState := by
  refine ⟨⟨?_, ?_, ?_, rfl, ?_, ?_⟩, ?_⟩
  · simp [initState, TLB_SIZE]
  · simp [initState]
  · intro e he
    simp [initState] at he
  · intro p hp
    exact absurd rfl hp
  · intro p q hp _
    exact absurd rfl hp
  · simp [initState, FRAME_SIZE]

/-- A frame number (a `Nat` cast) can never equal the `-1` sentinel. -/
theorem natCast_ne_negOne (f : Nat) : (f : Int) ≠ -1 := by
  omega

/-- Preservation of the invariant by one loop iteration: a completed
iteration keeps `Inv`, and the fatal exit still satisfies `Inv0` with the
cursor exactly at the frame count. -/
theorem step_inv {bs : Nat → Nat → Int} {s : SimState} {a : Nat} (h : Inv s) :
    (∀ s1 out, step bs s a = .ok (s1, out) → Inv s1) ∧
    (∀ s1, step bs s a = .error s1 → Inv0 s1 ∧ s1.nextAvailableFrame = FRAME_SIZE) := by
  rcases hgf : TLB.getFrameNumber s.tlb (pageNumberOf (a &&& MASK)) with ⟨o, t⟩
  have ht_sub : ∀ x ∈ t, x ∈ s.tlb := by
    intro x hx
    exact TLB.mem_of_mem_getFrameNumber (by rw [hgf]; exact hx)
  have ht_len : t.length = s.tlb.length := by
    have := TLB.length_getFrameNumber s.tlb (pageNumberOf (a &&& MASK))
    rwa [hgf] at this
  have ht_nodup : (t.map Prod.fst).Nodup := by
    have := TLB.keys_getFrameNumber_perm s.tlb (pageNumberOf (a &&& MASK))
    rw [hgf] at this
    exact this.symm.nodup h.tlb_nodup
  cases o with
  | some f =>
    have hstep := step_tlb_hit bs hgf
    constructor
    · intro s1 out hok
      rw [hstep] at hok
      obtain ⟨rfl, -⟩ : s1 = _ ∧ out = _ := by
        have := hok
        simp only [Except.ok.injEq, Prod.mk.injEq] at this
        exact ⟨this.1.symm, this.2.symm⟩
      exact ⟨⟨ht_len ▸ h.tlb_len, ht_nodup,
        fun e he => h.coherent e (ht_sub e he),
        h.cursor_faults, h.mapped_lt, h.inj⟩, h.cursor_lt⟩
    · intro s1 herr
      rw [hstep] at herr
      cases herr
  | none =>
    -- a TLB miss does not mutate the deque
    have ht : t = s.tlb := by
      rcases TLB.getFrameNumber_eq s.tlb (pageNumberOf (a &&& MASK)) with
        ⟨f, -, heq⟩ | ⟨-, heq⟩
      · rw [hgf] at heq
        cases heq
      · rw [hgf] at heq
        exact (Prod.mk.injEq _ _ _ _ ▸ heq).2 |>.symm ▸ rfl
    subst ht
    rcases hpt : PageTable.getFrameNumber s.pageTable (pageNumberOf (a &&& MASK))
      with - | f
    · -- page fault
      have hne : s.pageTable (pageNumberOf (a &&& MASK)) = -1 :=
        PageTable.getFrameNumber_eq_none.1 hpt
      have hfr : s.nextAvailableFrame % 256 = s.nextAvailableFrame :=
        Nat.mod_eq_of_lt (by simpa [FRAME_SIZE] using h.cursor_lt)
      have hstep := step_fault bs hgf hpt
      rw [hfr] at hstep
      set pageNumber := pageNumberOf (a &&& MASK) with hpn
      set s' : SimState := { s with
         tlb := TLB.addEntry s.tlb pageNumber s.nextAvailableFrame
         pageTable := PageTable.setFrameNumber s.pageTable pageNumber
           s.nextAvailableFrame
         memory := PhysicalMemory.loadPage s.memory s.nextAvailableFrame
           (BackingStore.readPage bs pageNumber)
         nextAvailableFrame := s.nextAvailableFrame + 1
         totalAddresses := s.totalAddresses + 1
         pageFaults := s.pageFaults + 1 } with hs'
      have hinv0 : Inv0 s' := by
        refine ⟨?_, ?_, ?_, ?_, ?_, ?_⟩
        · show (TLB.addEntry s.tlb pageNumber s.nextAvailableFrame).length ≤ TLB_SIZE
          exact TLB.length_addEntry_le _ _ h.tlb_len
        · show ((TLB.addEntry s.tlb pageNumber s.nextAvailableFrame).map Prod.fst).Nodup
          exact TLB.nodup_keys_addEntry _ _ h.tlb_nodup
        · intro e he
          show PageTable.setFrameNumber s.pageTable pageNumber
            s.nextAvailableFrame e.1 = (e.2 : Int)
          rcases TLB.mem_of_mem_addEntry he with rfl | hmem
          · exact PageTable.setFrameNumber_same _ _ _
          · have hne2 : e.1 ≠ pageNumber := by
              intro hcon
              have := h.coherent e hmem
              rw [hcon, hne] at this
              exact natCast_ne_negOne e.2 this.symm
            rw [PageTable.setFrameNumber_other _ _ hne2]
            exact h.coherent e hmem
        · show s.nextAvailableFrame + 1 = s.pageFaults + 1
          rw [h.cursor_faults]
        · intro p hp
          replace hp : PageTable.setFrameNumber s.pageTable pageNumber
            s.nextAvailableFrame p ≠ -1 := hp
          show ∃ f : Nat, PageTable.setFrameNumber s.pageTable pageNumber
            s.nextAvailableFrame p = (f : Int) ∧ f < s.nextAvailableFrame + 1
          by_cases hq : p = pageNumber
          · subst hq
            refine ⟨s.nextAvailableFrame, PageTable.setFrameNumber_same _ _ _, ?_⟩
            omega
          · rw [PageTable.setFrameNumber_other _ _ hq] at hp ⊢
            obtain ⟨f0, hf0, hlt⟩ := h.mapped_lt p hp
            exact ⟨f0, hf0, by omega⟩
        · intro p q hp hpq
          replace hp : PageTable.setFrameNumber s.pageTable pageNumber
            s.nextAvailableFrame p ≠ -1 := hp
          replace hpq : PageTable.setFrameNumber s.pageTable pageNumber
              s.nextAvailableFrame p =
            PageTable.setFrameNumber s.pageTable pageNumber
              s.nextAvailableFrame q := hpq
          by_cases hq1 : p = pageNumber <;> by_cases hq2 : q = pageNumber
          · rw [hq1, hq2]
          · exfalso
            rw [hq1, PageTable.setFrameNumber_same] at hpq
            rw [PageTable.setFrameNumber_other _ _ hq2] at hpq
            have hqne : s.pageTable q ≠ -1 := by
              rw [← hpq]
              exact natCast_ne_negOne _
            obtain ⟨f0, hf0, hlt⟩ := h.mapped_lt q hqne
            rw [hf0] at hpq
            omega
          · exfalso
            rw [hq2, PageTable.setFrameNumber_same] at hpq
            rw [PageTable.setFrameNumber_other _ _ hq1] at hpq hp
            obtain ⟨f0, hf0, hlt⟩ := h.mapped_lt p hp
            rw [hf0] at hpq
            omega
          · rw [PageTable.setFrameNumber_other _ _ hq1] at hpq hp
            rw [PageTable.setFrameNumber_other _ _ hq2] at hpq
            exact h.inj p q hp hpq
      constructor
      · intro s1 out hok
        rw [hstep] at hok
        by_cases hfull : FRAME_SIZE ≤ s.nextAvailableFrame + 1
        · rw [if_pos hfull] at hok
          cases hok
        · rw [if_neg hfull] at hok
          obtain ⟨rfl, -⟩ : s1 = s' ∧ out = _ := by
            simp only [Except.ok.injEq, Prod.mk.injEq] at hok
            exact ⟨hok.1.symm, hok.2.symm⟩
          refine ⟨hinv0, ?_⟩
          show s.nextAvailableFrame + 1 < FRAME_SIZE
          omega
      · intro s1 herr
        rw [hstep] at herr
        by_cases hfull : FRAME_SIZE ≤ s.nextAvailableFrame + 1
        · rw [if_pos hfull] at herr
          obtain rfl : s1 = s' := by
            simp only [Except.error.injEq] at herr
            exact herr.symm
          refine ⟨hinv0, ?_⟩
          show s.nextAvailableFrame + 1 = FRAME_SIZE
          have := h.cursor_lt
          simp only [FRAME_SIZE] at hfull ⊢
          omega
        · rw [if_neg hfull] at herr
          cases herr
    · -- page-table hit
      have hstep := step_pt_hit bs hgf hpt
      obtain ⟨hne, hcast⟩ := PageTable.getFrameNumber_eq_some.1 hpt
      have hmap : s.pageTable (pageNumberOf (a &&& MASK)) = (f : Int) := by
        obtain ⟨f0, hf0, hlt⟩ := h.mapped_lt _ hne
        have hf0lt : f0 < 256 := by
          have := h.cursor_lt
          simp only [FRAME_SIZE] at this
          omega
        rw [hf0] at hcast ⊢
        simp only [Int.toNat_natCast] at hcast
        rw [Nat.mod_eq_of_lt hf0lt] at hcast
        rw [hcast]
      constructor
      · intro s1 out hok
        rw [hstep] at hok
        obtain ⟨rfl, -⟩ : s1 = _ ∧ out = _ := by
          simp only [Except.ok.injEq, Prod.mk.injEq] at hok
          exact ⟨hok.1.symm, hok.2.symm⟩
        refine ⟨⟨TLB.length_addEntry_le _ _ h.tlb_len,
          TLB.nodup_keys_addEntry _ _ h.tlb_nodup, ?_,
          h.cursor_faults, h.mapped_lt, h.inj⟩, h.cursor_lt⟩
        intro e he
        rcases TLB.mem_of_mem_addEntry he with rfl | hmem
        · exact hmap
        · exact h.coherent e hmem
      · intro s1 herr
        rw [hstep] at herr
        cases herr

/-- The invariant holds at the end of every run from an invariant state. -/
theorem run_inv0 (bs : Nat → Nat → Int) :
    ∀ (addrs : List Nat) (s : SimState), Inv s → Inv0 (run bs s addrs).1
  | [], _, h => h.toInv0
  | a :: rest, s, h => by
    rcases hstep : step bs s a with s1 | ⟨s1, out⟩
    · simp only [run, hstep]
      exact ((step_inv h).2 s1 hstep).1
    · simp only [run, hstep]
      exact run_inv0 bs rest s1 ((step_inv h).1 s1 out hstep)

/-! ### Inversion of a completed iteration -/

/-- What one completed loop iteration guarantees about its output line:
the logical address is the 16-bit mask of the input, the physical address
is assembled from the frame and the offset, the value is the byte of the
post-state memory at that physical address, and the (page, frame) pair used
is in the post-state TLB. -/
theorem step_ok_out {bs : Nat → Nat → Int} {s : SimState} {a : Nat}
    {s1 : SimState} {out : Output} (h : step bs s a = .ok (s1, out)) :
    out.logicalAddress = a &&& MASK ∧
    out.physicalAddress = (out.frameNumber <<< 8) ||| offsetOf (a &&& MASK) ∧
    out.value = PhysicalMemory.getValue s1.memory out.physicalAddress ∧
    (pageNumberOf (a &&& MASK), out.frameNumber) ∈ s1.tlb := by
  rcases hgf : TLB.getFrameNumber s.tlb (pageNumberOf (a &&& MASK)) with ⟨o, t⟩
  cases o with
  | some f =>
    rw [step_tlb_hit bs hgf] at h
    obtain ⟨rfl, rfl⟩ : s1 = _ ∧ out = _ := by
      simp only [Except.ok.injEq, Prod.mk.injEq] at h
      exact ⟨h.1.symm, h.2.symm⟩
    refine ⟨rfl, rfl, rfl, ?_⟩
    rcases TLB.getFrameNumber_eq s.tlb (pageNumberOf (a &&& MASK)) with
      ⟨f', -, heq⟩ | ⟨-, heq⟩
    · rw [hgf] at heq
      have h1 : f = f' := by
        have := congrArg Prod.fst heq
        simpa using this
      have h2 : t = s.tlb.eraseP (fun e => e.1 == pageNumberOf (a &&& MASK)) ++
          [(pageNumberOf (a &&& MASK), f')] := by
        simpa using congrArg Prod.snd heq
      show (pageNumberOf (a &&& MASK), f) ∈ t
      rw [h2, h1]
      exact List.mem_append_right _ (List.mem_singleton.2 rfl)
    · rw [hgf] at heq
      cases heq
  | none =>
    rcases hpt : PageTable.getFrameNumber s.pageTable (pageNumberOf (a &&& MASK))
      with - | f
    · rw [step_fault bs hgf hpt] at h
      by_cases hfull : FRAME_SIZE ≤ s.nextAvailableFrame + 1
      · rw [if_pos hfull] at h
        cases h
      · rw [if_neg hfull] at h
        obtain ⟨rfl, rfl⟩ : s1 = _ ∧ out = _ := by
          simp only [Except.ok.injEq, Prod.mk.injEq] at h
          exact ⟨h.1.symm, h.2.symm⟩
        exact ⟨rfl, rfl, rfl, TLB.mem_addEntry_self _ _ _⟩
    · rw [step_pt_hit bs hgf hpt] at h
      obtain ⟨rfl, rfl⟩ : s1 = _ ∧ out = _ := by
        simp only [Except.ok.injEq, Prod.mk.injEq] at h
        exact ⟨h.1.symm, h.2.symm⟩
      exact ⟨rfl, rfl, rfl, TLB.mem_addEntry_self _ _ _⟩

/-- One completed iteration keeps the TLB pages duplicate-free. -/
theorem step_ok_tlb_nodup {bs : Nat → Nat → Int} {s : SimState} {a : Nat}
    {s1 : SimState} {out : Output} (hnd : (s.tlb.map Prod.fst).Nodup)
    (h : step bs s a = .ok (s1, out)) : (s1.tlb.map Prod.fst).Nodup := by
  rcases hgf : TLB.getFrameNumber s.tlb (pageNumberOf (a &&& MASK)) with ⟨o, t⟩
  have ht_nodup : (t.map Prod.fst).Nodup := by
    have := TLB.keys_getFrameNumber_perm s.tlb (pageNumberOf (a &&& MASK))
    rw [hgf] at this
    exact this.symm.nodup hnd
  cases o with
  | some f =>
    rw [step_tlb_hit bs hgf] at h
    obtain rfl : s1 = _ := by
      simp only [Except.ok.injEq, Prod.mk.injEq] at h
      exact h.1.symm
    exact ht_nodup
  | none =>
    rcases hpt : PageTable.getFrameNumber s.pageTable (pageNumberOf (a &&& MASK))
      with - | f
    · rw [step_fault bs hgf hpt] at h
      by_cases hfull : FRAME_SIZE ≤ s.nextAvailableFrame + 1
      · rw [if_pos hfull] at h
        cases h
      · rw [if_neg hfull] at h
        obtain rfl : s1 = _ := by
          simp only [Except.ok.injEq, Prod.mk.injEq] at h
          exact h.1.symm
        exact TLB.nodup_keys_addEntry _ _ ht_nodup
    · rw [step_pt_hit bs hgf hpt] at h
      obtain rfl : s1 = _ := by
        simp only [Except.ok.injEq, Prod.mk.injEq] at h
        exact h.1.symm
      exact TLB.nodup_keys_addEntry _ _ ht_nodup

/-! ### Run unfolding -/

theorem run_nil {bs : Nat → Nat → Int} {s : SimState} : run bs s [] = (s, [], false) :=
  rfl

theorem run_cons_ok {bs : Nat → Nat → Int} {s s1 : SimState} {a : Nat}
    {out : Output} {rest : List Nat} (h : step bs s a = .ok (s1, out)) :
    run bs s (a :: rest) =
      ((run bs s1 rest).1, out :: (run bs s1 rest).2.1, (run bs s1 rest).2.2) := by
  simp only [run, h]

theorem run_cons_err {bs : Nat → Nat → Int} {s s1 : SimState} {a : Nat}
    {rest : List Nat} (h : step bs s a = .error s1) :
    run bs s (a :: rest) = (s1, [], true) := by
  simp only [run, h]

/-- The post-state of one loop iteration, whether it completed or took the
fatal exit. -/
def stepState (bs : Nat → Nat → Int) (s : SimState) (a : Nat) : SimState :=
  match step bs s a with
  | .ok (s', _) => s'
  | .error s' => s'

/-- The page table is only ever written on a fault, at a page that was
unmapped: a mapped page's frame survives any iteration unchanged. -/
theorem stepState_pageTable_mono {bs : Nat → Nat → Int} {s : SimState} {a : Nat}
    (p : Nat) (hp : s.pageTable p ≠ -1) :
    (stepState bs s a).pageTable p = s.pageTable p := by
  unfold stepState
  rcases hgf : TLB.getFrameNumber s.tlb (pageNumberOf (a &&& MASK)) with ⟨o, t⟩
  cases o with
  | some f =>
    rw [step_tlb_hit bs hgf]
  | none =>
    rcases hpt : PageTable.getFrameNumber s.pageTable (pageNumberOf (a &&& MASK))
      with - | f
    · have hne : s.pageTable (pageNumberOf (a &&& MASK)) = -1 :=
        PageTable.getFrameNumber_eq_none.1 hpt
      have hnep : p ≠ pageNumberOf (a &&& MASK) := fun hcon => hp (hcon ▸ hne)
      rw [step_fault bs hgf hpt]
      by_cases hfull : FRAME_SIZE ≤ s.nextAvailableFrame + 1
      · rw [if_pos hfull]
        exact PageTable.setFrameNumber_other _ _ hnep
      · rw [if_neg hfull]
        exact PageTable.setFrameNumber_other _ _ hnep
    · rw [step_pt_hit bs hgf hpt]

/-! ### Bit-arithmetic bridges -/

theorem and_mask_idem (a : Nat) : (a &&& MASK) &&& MASK = a &&& MASK := by
  rw [Nat.and_assoc, Nat.and_self]

theorem and_offset_mask_eq_mod (x : Nat) : x &&& OFFSET_MASK = x % 256 := by
  have h := Nat.and_pow_two_sub_one_eq_mod x 8
  norm_num at h
  simpa [OFFSET_MASK] using h

theorem offsetOf_lt (la : Nat) : offsetOf la < 256 := by
  rw [offsetOf, and_offset_mask_eq_mod]
  omega

theorem offsetOf_masked (a : Nat) : offsetOf (a &&& MASK) = a &&& OFFSET_MASK := by
  rw [offsetOf, and_offset_mask_eq_mod, and_offset_mask_eq_mod]
  have hm : a &&& MASK = a % 65536 := by
    have h := Nat.and_pow_two_sub_one_eq_mod a 16
    norm_num at h
    simpa [MASK] using h
  rw [hm]
  exact Nat.mod_mod_of_dvd a (by norm_num)

/-- The low 8 bits of `(f << 8) | r` are exactly `r` when `r < 256`. -/
theorem lor_shiftLeft_and_255 (f r : Nat) (hr : r < 256) :
    ((f <<< 8) ||| r) &&& 255 = r := by
  have hdist : ((f <<< 8) ||| r) &&& 255 =
      ((f <<< 8) &&& 255) ||| (r &&& 255) := by
    rw [Nat.and_comm _ 255, Nat.and_or_distrib_left, Nat.and_comm 255 _,
      Nat.and_comm 255 r]
  have h1 : (f <<< 8) &&& 255 = 0 := by
    have h := Nat.and_pow_two_sub_one_eq_mod (f <<< 8) 8
    norm_num at h
    rw [h, Nat.shiftLeft_eq]
    norm_num
  have h2 : r &&& 255 = r := by
    have h := Nat.and_pow_two_sub_one_eq_mod r 8
    norm_num at h
    rw [h]
    exact Nat.mod_eq_of_lt hr
  rw [hdist, h1, h2]
  simp

/-! ### Concrete inputs for closed-form runs -/

/-- An all-zero backing-store image, standing in for `BACKING_STORE.bin` in
concrete runs. -/
def bs0 : Nat → Nat → Int := fun _ _ => 0

/-- 256 input addresses `k * 256` for `k = 0 .. 255`: they touch all 256
distinct pages, one address per page. -/
def addrs256 : List Nat := (List.range 256).map (fun k => k <<< 8)

/-! ### An arbitrary operation sequence on the Translation Cache -/

/-- One call to the public interface of class `TLB`. -/
inductive TLBOp where
  | lookup (pageNumber : Nat)
  | insert (pageNumber frameNumber : Nat)

/-- The deque after one `TLB` call. -/
def applyOp (tlb : List TLBEntry) : TLBOp → List TLBEntry
  | .lookup p => (TLB.getFrameNumber tlb p).2
  | .insert p f => TLB.addEntry tlb p f

/-- The deque after a sequence of `TLB` calls on an initially empty TLB. -/
def applyOps (ops : List TLBOp) : List TLBEntry := ops.foldl applyOp []

theorem applyOp_preserves {tlb : List TLBEntry} (op : TLBOp)
    (hlen : tlb.length ≤ TLB_SIZE) (hnd : (tlb.map Prod.fst).Nodup) :
    (applyOp tlb op).length ≤ TLB_SIZE ∧ ((applyOp tlb op).map Prod.fst).Nodup := by
  cases op with
  | lookup p =>
    exact ⟨TLB.length_getFrameNumber tlb p ▸ hlen,
      (TLB.keys_getFrameNumber_perm tlb p).symm.nodup hnd⟩
  | insert p f =>
    exact ⟨TLB.length_addEntry_le p f hlen, TLB.nodup_keys_addEntry p f hnd⟩

theorem foldl_applyOp_preserves :
    ∀ (ops : List TLBOp) (tlb : List TLBEntry), tlb.length ≤ TLB_SIZE →
      (tlb.map Prod.fst).Nodup →
      (ops.foldl applyOp tlb).length ≤ TLB_SIZE ∧
        ((ops.foldl applyOp tlb).map Prod.fst).Nodup
  | [], _, hlen, hnd => ⟨hlen, hnd⟩
  | op :: rest, tlb, hlen, hnd => by
    rw [List.foldl_cons]
    obtain ⟨h1, h2⟩ := applyOp_preserves op hlen hnd
    exact foldl_applyOp_preserves rest _ h1 h2

/-! ### Claims about the Translation Cache -/

/-- **C5.** `TLB::getFrameNumber` returns the frame of the matching entry
when one exists, after moving that entry (frame unchanged) to the newest
(back) position; when no entry matches it returns empty and leaves the
deque contents and order untouched. -/
theorem claim_C5 (tlb : List TLBEntry) (p : Nat) :
    ((TLB.getFrameNumber tlb p).1 = none →
       (TLB.getFrameNumber tlb p).2 = tlb ∧ ∀ e ∈ tlb, e.1 ≠ p) ∧
    (∀ f, (TLB.getFrameNumber tlb p).1 = some f →
       tlb.find? (fun e => e.1 == p) = some (p, f) ∧
       (TLB.getFrameNumber tlb p).2 =
         tlb.eraseP (fun e => e.1 == p) ++ [(p, f)]) := by
  rcases TLB.getFrameNumber_eq tlb p with ⟨f, hfind, heq⟩ | ⟨hfind, heq⟩
  · constructor
    · intro h0
      rw [heq] at h0
      simp at h0
    · intro f' hf'
      rw [heq] at hf' ⊢
      obtain rfl : f = f' := by simpa using hf'
      exact ⟨hfind, rfl⟩
  · constructor
    · intro _
      rw [heq]
      refine ⟨rfl, ?_⟩
      intro e he hep
      have hno := List.find?_eq_none.1 hfind e he
      simp [hep] at hno
    · intro f hf
      rw [heq] at hf
      simp at hf

/-- Closed instance of C5: a hit on page 3 in `[(1,2),(3,4)]` and a miss on
page 5. -/
theorem claim_C5_witness :
    ([((1 : Nat), (2 : Nat)), (3, 4)].find? (fun e => e.1 == 3) = some (3, 4) ∧
      (TLB.getFrameNumber [(1, 2), (3, 4)] 3).2 =
        [((1 : Nat), (2 : Nat)), (3, 4)].eraseP (fun e => e.1 == 3) ++ [(3, 4)]) ∧
    ((TLB.getFrameNumber [((1 : Nat), (2 : Nat)), (3, 4)] 5).2 = [(1, 2), (3, 4)] ∧
      ∀ e ∈ [((1 : Nat), (2 : Nat)), (3, 4)], e.1 ≠ 5) :=
  ⟨(claim_C5 [(1, 2), (3, 4)] 3).2 4 (by decide),
   (claim_C5 [(1, 2), (3, 4)] 5).1 (by decide)⟩

/-- **C4.** Across every sequence of TLB operations from the empty cache the
deque stays within 16 entries with no duplicate page; and inserting more
than 16 distinct, never-re-accessed pages keeps exactly the newest 16, so
the very first inserted page's entry is the one evicted. -/
theorem claim_C4 :
    (∀ ops : List TLBOp,
       (applyOps ops).length ≤ TLB_SIZE ∧ ((applyOps ops).map Prod.fst).Nodup) ∧
    (∀ ps : List TLBEntry, (ps.map Prod.fst).Nodup → TLB_SIZE < ps.length →
       ps.foldl (fun t e => TLB.addEntry t e.1 e.2) [] =
         ps.drop (ps.length - TLB_SIZE) ∧
       ∀ e0, ps.head? = some e0 →
         e0.1 ∉ (ps.foldl (fun t e => TLB.addEntry t e.1 e.2) []).map Prod.fst) := by
  constructor
  · intro ops
    exact foldl_applyOp_preserves ops [] (by simp [TLB_SIZE]) (by simp)
  · intro ps hnd hlong
    have hfold := TLB.foldl_addEntry_fresh ps [] (by simp [TLB_SIZE]) hnd
      (by simp)
    simp only [List.nil_append, List.length_nil, Nat.zero_add] at hfold
    refine ⟨hfold, ?_⟩
    intro e0 hhead
    obtain ⟨x, rest, rfl⟩ : ∃ x rest, ps = x :: rest := by
      cases ps with
      | nil => cases hhead
      | cons x rest => exact ⟨x, rest, rfl⟩
    have hx : x = e0 := by simpa using hhead
    rw [hfold, ← hx]
    have hidx : (x :: rest).length - TLB_SIZE = (rest.length - TLB_SIZE) + 1 := by
      simp only [List.length_cons] at hlong ⊢
      simp only [TLB_SIZE] at hlong ⊢
      omega
    rw [hidx, List.drop_succ_cons]
    rw [List.map_cons, List.nodup_cons] at hnd
    intro hmem
    exact hnd.1 (((rest.drop_sublist _).map Prod.fst).mem hmem)

/-- Closed instance of C4: inserting the 17 distinct pages `0..16` into the
empty cache evicts exactly page 0's entry and keeps the other 16. -/
theorem claim_C4_witness :
    ((List.range 17).map (fun k => ((k : Nat), k))).foldl
        (fun t e => TLB.addEntry t e.1 e.2) [] =
      ((List.range 17).map (fun k => ((k : Nat), k))).drop
        (((List.range 17).map (fun k => ((k : Nat), k))).length - TLB_SIZE) ∧
    (0 : Nat) ∉ (((List.range 17).map (fun k => ((k : Nat), k))).foldl
        (fun t e => TLB.addEntry t e.1 e.2) []).map Prod.fst := by
  have h := (claim_C4.2 ((List.range 17).map (fun k => ((k : Nat), k)))
    (by decide) (by decide))
  exact ⟨h.1, h.2 (0, 0) (by decide)⟩

/-- **C6.** Recency promotion: after inserting distinct pages A, B, C, a
lookup hit on A, then 14 further distinct fresh insertions (filling the
cache to 17 candidates, forcing exactly one eviction), A's entry survives
and B's is the one evicted. -/
theorem claim_C6 (A B C fA fB fC : Nat) (ps : List TLBEntry)
    (hAB : A ≠ B) (hAC : A ≠ C) (hBC : B ≠ C)
    (hlen : ps.length = 14) (hnd : (ps.map Prod.fst).Nodup)
    (hfresh : ∀ e ∈ ps, e.1 ≠ A ∧ e.1 ≠ B ∧ e.1 ≠ C) :
    (TLB.getFrameNumber
        (TLB.addEntry (TLB.addEntry (TLB.addEntry [] A fA) B fB) C fC) A).1 =
      some fA ∧
    A ∈ (ps.foldl (fun t e => TLB.addEntry t e.1 e.2)
        (TLB.getFrameNumber
          (TLB.addEntry (TLB.addEntry (TLB.addEntry [] A fA) B fB) C fC) A).2).map
      Prod.fst ∧
    B ∉ (ps.foldl (fun t e => TLB.addEntry t e.1 e.2)
        (TLB.getFrameNumber
          (TLB.addEntry (TLB.addEntry (TLB.addEntry [] A fA) B fB) C fC) A).2).map
      Prod.fst := by
  have h1 : TLB.addEntry [] A fA = [(A, fA)] := by
    simp [TLB.addEntry, TLB_SIZE]
  have h2 : TLB.addEntry [(A, fA)] B fB = [(A, fA), (B, fB)] := by
    rw [TLB.addEntry_of_not_mem fB (by simp [hAB.symm])]
    simp [TLB_SIZE]
  have h3 : TLB.addEntry [(A, fA), (B, fB)] C fC = [(A, fA), (B, fB), (C, fC)] := by
    rw [TLB.addEntry_of_not_mem fC (by simp [hAC.symm, hBC.symm])]
    simp [TLB_SIZE]
  have h4 : TLB.getFrameNumber [(A, fA), (B, fB), (C, fC)] A =
      (some fA, [(B, fB), (C, fC), (A, fA)]) := by
    rw [TLB.getFrameNumber]
    simp
  have hfold := TLB.foldl_addEntry_fresh ps [(B, fB), (C, fC), (A, fA)]
    (by simp [TLB_SIZE]) hnd
    (by
      intro e he
      obtain ⟨heA, heB, heC⟩ := hfresh e he
      simp [heA, heB, heC])
  have hfold2 : ps.foldl (fun t e => TLB.addEntry t e.1 e.2)
      [(B, fB), (C, fC), (A, fA)] = (C, fC) :: (A, fA) :: ps := by
    rw [hfold]
    have hidx : [(B, fB), (C, fC), (A, fA)].length + ps.length - TLB_SIZE = 1 := by
      simp [hlen, TLB_SIZE]
    rw [hidx]
    simp
  rw [h1, h2, h3, h4]
  refine ⟨rfl, ?_, ?_⟩
  · show A ∈ (ps.foldl (fun t e => TLB.addEntry t e.1 e.2)
        [(B, fB), (C, fC), (A, fA)]).map Prod.fst
    rw [hfold2]
    simp
  · show B ∉ (ps.foldl (fun t e => TLB.addEntry t e.1 e.2)
        [(B, fB), (C, fC), (A, fA)]).map Prod.fst
    rw [hfold2]
    simp only [List.map_cons, List.mem_cons]
    push_neg
    refine ⟨hBC, hAB.symm, ?_⟩
    intro hmem
    obtain ⟨e, he, hee⟩ := List.mem_map.1 hmem
    exact (hfresh e he).2.1 hee

/-- Closed instance of C6 with A,B,C = 0,1,2 and fresh pages 3..16. -/
theorem claim_C6_witness :
    (TLB.getFrameNumber
        (TLB.addEntry (TLB.addEntry (TLB.addEntry [] 0 10) 1 11) 2 12) 0).1 =
      some 10 ∧
    (0 : Nat) ∈ (((List.range 14).map (fun k => (k + 3, k))).foldl
        (fun t e => TLB.addEntry t e.1 e.2)
        (TLB.getFrameNumber
          (TLB.addEntry (TLB.addEntry (TLB.addEntry [] 0 10) 1 11) 2 12) 0).2).map
      Prod.fst ∧
    (1 : Nat) ∉ (((List.range 14).map (fun k => (k + 3, k))).foldl
        (fun t e => TLB.addEntry t e.1 e.2)
        (TLB.getFrameNumber
          (TLB.addEntry (TLB.addEntry (TLB.addEntry [] 0 10) 1 11) 2 12) 0).2).map
      Prod.fst :=
  claim_C6 0 1 2 10 11 12 ((List.range 14).map (fun k => (k + 3, k)))
    (by decide) (by decide) (by decide) (by decide) (by decide)
    (by decide)

/-! ### Claims about address decomposition and re-translation -/

/-- **C3.** Every input value is used only through its low 16 bits; the
physical address is assembled as `(frame << 8) | (L & 0xFF)`; and the low
8 bits (the offset) of the emitted physical address always equal the low
8 bits of the masked logical address. -/
theorem claim_C3 (bs : Nat → Nat → Int) (s : SimState) (a : Nat) :
    step bs s a = step bs s (a &&& MASK) ∧
    ∀ s1 out, step bs s a = .ok (s1, out) →
      out.logicalAddress = a &&& MASK ∧
      pageNumberOf out.logicalAddress = ((a &&& MASK) >>> 8) &&& 0xFF ∧
      out.physicalAddress = (out.frameNumber <<< 8) ||| (a &&& 0xFF) ∧
      out.physicalAddress &&& 0xFF = out.logicalAddress &&& 0xFF := by
  constructor
  · simp only [step]
    rw [and_mask_idem]
  · intro s1 out h
    obtain ⟨hlog, hphys, hval, -⟩ := step_ok_out h
    refine ⟨hlog, ?_, ?_, ?_⟩
    · rw [hlog]
      rfl
    · rw [hphys, offsetOf_masked]
      rfl
    · rw [hphys, hlog]
      have h1 := lor_shiftLeft_and_255 out.frameNumber (offsetOf (a &&& MASK))
        (offsetOf_lt _)
      rw [h1]
      rfl

/-- Closed instance of C3 at the 17-bit input 74565 = 0x12345. -/
theorem claim_C3_witness :
    step bs0 initState 74565 = step bs0 initState (74565 &&& MASK) ∧
    ∃ s1 out, step bs0 initState 74565 = .ok (s1, out) ∧
      out.logicalAddress = 74565 &&& MASK ∧
      out.physicalAddress &&& 0xFF = out.logicalAddress &&& 0xFF := by
  obtain ⟨s1, out, h⟩ : ∃ s1 out, step bs0 initState 74565 = .ok (s1, out) :=
    ⟨_, _, rfl⟩
  have hc := claim_C3 bs0 initState 74565
  exact ⟨hc.1, s1, out, h, (hc.2 s1 out h).1, (hc.2 s1 out h).2.2.2⟩

/-- **C7.** Translating the same address twice in a row: if the first
iteration completes with output `out`, the second is a TLB hit that emits
the very same output record (same frame, same byte value) and bumps the hit
counter. -/
theorem claim_C7 (bs : Nat → Nat → Int) (s : SimState) (a : Nat)
    (s1 : SimState) (out : Output)
    (hnd : (s.tlb.map Prod.fst).Nodup)
    (h : step bs s a = .ok (s1, out)) :
    ∃ s2, step bs s1 a = .ok (s2, out) ∧ s2.tlbHits = s1.tlbHits + 1 := by
  obtain ⟨hlog, hphys, hval, hmem⟩ := step_ok_out h
  have hnd1 := step_ok_tlb_nodup hnd h
  obtain ⟨l, pa, v, fr⟩ := out
  dsimp only at hlog hphys hval hmem
  subst hlog
  subst hval
  subst hphys
  have hfst := TLB.getFrameNumber_fst_of_mem hnd1 hmem
  have hpair : TLB.getFrameNumber s1.tlb (pageNumberOf (a &&& MASK)) =
      (some fr, (TLB.getFrameNumber s1.tlb (pageNumberOf (a &&& MASK))).2) := by
    rw [← hfst]
  exact ⟨_, step_tlb_hit bs hpair, rfl⟩

/-- Closed instance of C7: address 0 translated twice from the empty state. -/
theorem claim_C7_witness :
    ∃ s1 out, step bs0 initState 0 = .ok (s1, out) ∧
      ∃ s2, step bs0 s1 0 = .ok (s2, out) ∧ s2.tlbHits = s1.tlbHits + 1 := by
  obtain ⟨s1, out, h⟩ : ∃ s1 out, step bs0 initState 0 = .ok (s1, out) :=
    ⟨_, _, rfl⟩
  exact ⟨s1, out, h, claim_C7 bs0 initState 0 s1 out (by simp [initState]) h⟩

/-! ### Fresh-page streams: fault counting -/

/-- Running a stream of addresses whose pages are pairwise distinct and all
still unmapped faults once per address and never hits the cache. -/
theorem run_fresh_counts (bs : Nat → Nat → Int) :
    ∀ (addrs : List Nat) (s : SimState), Inv s →
      ((addrs.map fun x => pageNumberOf (x &&& MASK)).Nodup) →
      (∀ x ∈ addrs, s.pageTable (pageNumberOf (x &&& MASK)) = -1) →
      s.nextAvailableFrame + addrs.length ≤ FRAME_SIZE →
      (run bs s addrs).1.pageFaults = s.pageFaults + addrs.length ∧
      (run bs s addrs).1.tlbHits = s.tlbHits
  | [], s, _, _, _, _ => by simp [run_nil]
  | a :: rest, s, hinv, hnd, hfresh, hcap => by
    have hp : s.pageTable (pageNumberOf (a &&& MASK)) = -1 :=
      hfresh a (List.mem_cons_self _ _)
    have hnotin : pageNumberOf (a &&& MASK) ∉ s.tlb.map Prod.fst := by
      intro hmem
      obtain ⟨e, he, hee⟩ := List.mem_map.1 hmem
      have hco := hinv.coherent e he
      rw [hee, hp] at hco
      exact natCast_ne_negOne e.2 hco.symm
    have hgf := TLB.getFrameNumber_of_not_mem hnotin
    have hpt := PageTable.getFrameNumber_eq_none.2 hp
    have hfr : s.nextAvailableFrame % 256 = s.nextAvailableFrame :=
      Nat.mod_eq_of_lt (by simpa [FRAME_SIZE] using hinv.cursor_lt)
    have hstep := step_fault bs hgf hpt
    rw [hfr] at hstep
    rw [List.map_cons, List.nodup_cons] at hnd
    obtain ⟨hnd1, hnd2⟩ := hnd
    set pageNumber := pageNumberOf (a &&& MASK) with hpn
    set s' : SimState := { s with
       tlb := TLB.addEntry s.tlb pageNumber s.nextAvailableFrame
       pageTable := PageTable.setFrameNumber s.pageTable pageNumber
         s.nextAvailableFrame
       memory := PhysicalMemory.loadPage s.memory s.nextAvailableFrame
         (BackingStore.readPage bs pageNumber)
       nextAvailableFrame := s.nextAvailableFrame + 1
       totalAddresses := s.totalAddresses + 1
       pageFaults := s.pageFaults + 1 } with hs'
    by_cases hfull : FRAME_SIZE ≤ s.nextAvailableFrame + 1
    · rw [if_pos hfull] at hstep
      have hrest : rest = [] := by
        simp only [List.length_cons, FRAME_SIZE] at hcap hfull
        have h2 : rest.length = 0 := by omega
        exact List.length_eq_zero.1 h2
      subst hrest
      rw [run_cons_err hstep]
      exact ⟨rfl, rfl⟩
    · rw [if_neg hfull] at hstep
      rw [run_cons_ok hstep]
      have hinvS : Inv s' := (step_inv hinv).1 _ _ hstep
      have hfreshS : ∀ x ∈ rest, s'.pageTable (pageNumberOf (x &&& MASK)) = -1 := by
        intro x hx
        show PageTable.setFrameNumber s.pageTable pageNumber
          s.nextAvailableFrame (pageNumberOf (x &&& MASK)) = -1
        have hne : pageNumberOf (x &&& MASK) ≠ pageNumber := by
          intro hcon
          exact hnd1 (hcon ▸ List.mem_map_of_mem _ hx)
        rw [PageTable.setFrameNumber_other _ _ hne]
        exact hfresh x (List.mem_cons_of_mem a hx)
      have hcapS : s'.nextAvailableFrame + rest.length ≤ FRAME_SIZE := by
        show s.nextAvailableFrame + 1 + rest.length ≤ FRAME_SIZE
        simp only [List.length_cons] at hcap
        omega
      obtain ⟨ih1, ih2⟩ := run_fresh_counts bs rest s' hinvS hnd2 hfreshS hcapS
      dsimp only
      rw [ih1, ih2]
      constructor
      · show s.pageFaults + 1 + rest.length = s.pageFaults + (a :: rest).length
        simp only [List.length_cons]
        omega
      · rfl

/-! ### Claims about the full pipeline state -/

/-- **C8.** A stream of `M ≤ 256` addresses on pairwise distinct pages,
run from the initial empty state, ends with exactly `M` page faults and
zero cache hits. -/
theorem claim_C8 (bs : Nat → Nat → Int) (addrs : List Nat)
    (hnd : (addrs.map fun x => pageNumberOf (x &&& MASK)).Nodup)
    (hlen : addrs.length ≤ 256) :
    (run bs initState addrs).1.pageFaults = addrs.length ∧
    (run bs initState addrs).1.tlbHits = 0 := by
  have h := run_fresh_counts bs addrs initState inv_initState hnd
    (fun x _ => rfl) (by simpa [initState, FRAME_SIZE] using hlen)
  simpa [initState] using h

/-- Closed instance of C8: three addresses on the distinct pages 1, 2, 3. -/
theorem claim_C8_witness :
    (run bs0 initState [256, 512, 768]).1.pageFaults = 3 ∧
    (run bs0 initState [256, 512, 768]).1.tlbHits = 0 := by
  have h := claim_C8 bs0 [256, 512, 768] (by decide) (by decide)
  simpa using h

/-- **C9.** All 256 page-table entries start unmapped; a mapped page's frame
is never changed or unmapped by any iteration; and in every state reachable
from the initial one, no two distinct pages are mapped to the same frame. -/
theorem claim_C9 :
    (∀ p, initState.pageTable p = -1) ∧
    (∀ (bs : Nat → Nat → Int) (s : SimState) (a p : Nat), s.pageTable p ≠ -1 →
       (stepState bs s a).pageTable p = s.pageTable p) ∧
    (∀ (bs : Nat → Nat → Int) (addrs : List Nat) (p q : Nat),
       (run bs initState addrs).1.pageTable p ≠ -1 →
       (run bs initState addrs).1.pageTable p =
         (run bs initState addrs).1.pageTable q →
       p = q) := by
  refine ⟨fun p => rfl, ?_, ?_⟩
  · intro bs s a p hp
    exact stepState_pageTable_mono p hp
  · intro bs addrs p q hp hpq
    exact (run_inv0 bs addrs initState inv_initState).inj p q hp hpq

/-- Closed instance of C9: page 0 is mapped after translating address 0,
stays mapped across a further iteration, and injectivity at a concrete
reachable state. -/
theorem claim_C9_witness :
    initState.pageTable 7 = -1 ∧
    (stepState bs0 (run bs0 initState [0]).1 256).pageTable 0 =
      (run bs0 initState [0]).1.pageTable 0 ∧
    ((run bs0 initState [0, 256]).1.pageTable 0 =
        (run bs0 initState [0, 256]).1.pageTable 0 → (0 : Nat) = 0) :=
  ⟨claim_C9.1 7,
   claim_C9.2.1 bs0 (run bs0 initState [0]).1 256 0 (by decide),
   fun h => claim_C9.2.2 bs0 [0, 256] 0 0 (by decide) h⟩

/-- **C10.** In every reachable state the Translation Cache is coherent with
the Page Table — each cached (page, frame) entry is mapped, to that same
frame — and the frame-allocator cursor equals the page-fault count. -/
theorem claim_C10 (bs : Nat → Nat → Int) (addrs : List Nat) :
    (∀ e ∈ (run bs initState addrs).1.tlb,
       (run bs initState addrs).1.pageTable e.1 ≠ -1 ∧
       (run bs initState addrs).1.pageTable e.1 = (e.2 : Int)) ∧
    (run bs initState addrs).1.nextAvailableFrame =
      (run bs initState addrs).1.pageFaults := by
  have h := run_inv0 bs addrs initState inv_initState
  refine ⟨?_, h.cursor_faults⟩
  intro e he
  have hco := h.coherent e he
  exact ⟨fun hcon => natCast_ne_negOne e.2 (hco.symm.trans hcon), hco⟩

/-- Closed instance of C10 after translating addresses 0 and 256. -/
theorem claim_C10_witness :
    ((run bs0 initState [0, 256]).1.pageTable 0 ≠ -1 ∧
      (run bs0 initState [0, 256]).1.pageTable 0 = ((0 : Nat) : Int)) ∧
    (run bs0 initState [0, 256]).1.nextAvailableFrame =
      (run bs0 initState [0, 256]).1.pageFaults := by
  have h := claim_C10 bs0 [0, 256]
  exact ⟨h.1 (0, 0) (by decide), h.2⟩

/-! ### Claims about the error paths (evaluated at their failing inputs) -/

set_option maxRecDepth 100000 in
/-- **C1** (failing input): running the 256 distinct-page stream `addrs256`
(address `k * 256` for `k = 0 .. 255`), the program takes the fatal
"Physical memory is full" exit already during the 256th distinct-page
fault — after all 256 faults are counted and all 256 frames allocated —
having emitted only 255 translation lines: the output of the address whose
fault consumed the last frame is dropped, and a 257th distinct-page fault
is never reached. -/
theorem claim_C1_eval :
    (run bs0 initState addrs256).2.2 = true ∧
    (run bs0 initState addrs256).2.1.length = 255 ∧
    (run bs0 initState addrs256).1.pageFaults = 256 ∧
    (run bs0 initState addrs256).1.nextAvailableFrame = 256 := by
  refine ⟨?_, ?_, ?_, ?_⟩ <;> rfl

/-- **C2** (failing input): with an empty address stream the loop leaves
`totalAddresses = 0`, yet `main` unconditionally evaluates both rate
expressions with `totalAddresses` as the divisor — there is no zero guard
and no "no data" signal.  The sample-point half of the claim is exact: at
total=100 the rate expressions give 75% faults and 25% hits. -/
theorem claim_C2_eval :
    (run bs0 initState []).1.totalAddresses = 0 ∧
    pageFaultRate 75 100 = 75 ∧
    tlbHitRate 25 100 = 25 := by
  refine ⟨rfl, ?_, ?_⟩ <;> norm_num [pageFaultRate, tlbHitRate]

end VMM
